import Mathlib

/-!
Verification of the `unz` archive lister/unpacker.

Strings from the Go source are modelled as lists of characters (`Str`).
Go's `strings.ToUpper` is Unicode-aware; the ASCII fold used here agrees
with it on every character relevant to the ASCII-only patterns the
program matches.
-/

set_option maxHeartbeats 1000000

abbrev Str := List Char

def upperS (s : Str) : Str := s.map Char.toUpper

/-- Embedding of Go `strings.Contains pat`: some position of `s` starts
with `pat`. -/
def hasSub (pat : Str) : Str → Bool
  | [] => pat.isPrefixOf ([] : Str)
  | c :: rest => pat.isPrefixOf (c :: rest) || hasSub pat rest

/-- Embedding of `isTarball` (src/unz.go): uppercase the whole name, then
test for the `.TAR` or `.TGZ` suffix or the `.TAR.` substring. -/
def isTarball (name : Str) : Bool :=
  let n := upperS name
  List.isSuffixOf (".TAR".toList) n || List.isSuffixOf (".TGZ".toList) n ||
    hasSub (".TAR.".toList) n

/-- Case-insensitive suffix test, as the spec phrases it. -/
def endsWithCI (s pat : Str) : Bool := List.isSuffixOf (upperS pat) (upperS s)

/-- Case-insensitive substring test, as the spec phrases it. -/
def containsCI (s pat : Str) : Bool := hasSub (upperS pat) (upperS s)

/-- The spec's wording of the tar-family test: ends with `.tar` or `.tgz`
or contains `.tar.`, ignoring case. -/
def tarFamilyCI (s : Str) : Bool :=
  endsWithCI s (".tar".toList) || endsWithCI s (".tgz".toList) ||
    containsCI s (".tar.".toList)

inductive Family
  | tarball
  | zip
  deriving DecidableEq, Repr

/-- The dispatch in `listContents` and `unpack` (src/unz.go): tar-family
names go to the tarball handler, every other name to the zip handler. -/
def classify (name : Str) : Family :=
  if isTarball name then Family.tarball else Family.zip

inductive Codec
  | gzip
  | bzip2
  | xz
  | identity
  deriving DecidableEq, Repr

/-- One result of `reader.Next()` on a tar stream: a header carrying the
member name, or a read error carrying its message.  The end of the
modelled list is `io.EOF`. -/
inductive TarNext
  | header (name : Str)
  | readErr (msg : Str)
  deriving DecidableEq, Repr

/-- The tar reader handed back by `openTarball`: which decompressor was
layered under it, and the stream of `Next()` results it will yield. -/
structure TarReader where
  codec : Codec
  entries : List TarNext
  deriving DecidableEq, Repr

/-- The shape of the `closer` closure built by `openTarball`: the gzip
branch closes the gzip reader and then the file; every other branch
closes only the file. -/
inductive CloserAct
  | gzThenFile
  | fileOnly
  deriving DecidableEq, Repr

/-- Observable effects: stdout chunks, stderr log lines, and filesystem
materialization. -/
inductive Event
  | out (s : Str)
  | err (s : Str)
  | fsWrite (p : List String)
  deriving DecidableEq, Repr

def Event.isFs : Event → Bool
  | Event.fsWrite _ => true
  | _ => false

/-- Embedding of `gong.Bold`: ANSI bold wrapper (presentation glue). -/
def bold (s : Str) : Str :=
  '\x1b' :: '[' :: '1' :: 'm' :: (s ++ ['\x1b', '[', '0', 'm'])

/-- Embedding of `gong.Underline`: ANSI underline wrapper (presentation glue). -/
def underline (s : Str) : Str :=
  '\x1b' :: '[' :: '4' :: 'm' :: (s ++ ['\x1b', '[', '0', 'm'])

/-- The ambient world an archive run observes: whether `os.Open`,
`gzip.NewReader` and `xz.NewReader` succeed for a path, the tar entry
stream, and the zip central directory (`none` when `zip.OpenReader`
fails). -/
structure Env where
  openOk : Str → Bool
  gzipOk : Str → Bool
  xzOk : Str → Bool
  tarEntries : Str → List TarNext
  zipDir : Str → Option (List Str)

/-- Embedding of `openTarball` (src/unz.go): open the file, pick the
decompressor by upper-cased suffix, and return the reader with its
closer; every failure logs and returns the `(nil, nil)` pair. -/
def openTarball (env : Env) (archive : Str) :
    (Option TarReader × Option CloserAct) × List Event :=
  if env.openOk archive = false then
    ((none, none),
      [Event.err (underline (("failed to open ").toList ++ archive))])
  else
    let uarchive := upperS archive
    if List.isSuffixOf (".GZ".toList) uarchive ||
        List.isSuffixOf (".TGZ".toList) uarchive then
      if env.gzipOk archive = false then
        ((none, none),
          [Event.err (underline (("failed to open ").toList ++ archive))])
      else
        ((some ⟨Codec.gzip, env.tarEntries archive⟩,
          some CloserAct.gzThenFile), [])
    else if List.isSuffixOf (".BZ2".toList) uarchive then
      ((some ⟨Codec.bzip2, env.tarEntries archive⟩,
        some CloserAct.fileOnly), [])
    else if List.isSuffixOf (".XZ".toList) uarchive then
      if env.xzOk archive = false then
        ((none, none),
          [Event.err (underline (("failed to open ").toList ++ archive))])
      else
        ((some ⟨Codec.xz, env.tarEntries archive⟩,
          some CloserAct.fileOnly), [])
    else
      ((some ⟨Codec.identity, env.tarEntries archive⟩,
        some CloserAct.fileOnly), [])

/-- The codec `openTarball` actually selects, read off its branch
conditions: case-insensitive suffix `.gz` or `.tgz` gives gzip, suffix
`.bz2` gives bzip2, suffix `.xz` gives xz, anything else the identity. -/
def tarCodecSpec (a : Str) : Codec :=
  if endsWithCI a (".gz".toList) || endsWithCI a (".tgz".toList) then
    Codec.gzip
  else if endsWithCI a (".bz2".toList) then Codec.bzip2
  else if endsWithCI a (".xz".toList) then Codec.xz
  else Codec.identity

/-- An environment in which every open succeeds and every stream is
empty. -/
def allOkEnv : Env :=
  ⟨fun _ => true, fun _ => true, fun _ => true, fun _ => [], fun _ => none⟩

def digitChar (d : Nat) : Char := Char.ofNat (48 + d)

/-- Fuel-based decimal digit rendering of a natural number (the rendering
`strconv.Itoa` produces for non-negative values). -/
def natDigitsAux : Nat → Nat → Str → Str
  | 0, _, acc => acc
  | fuel + 1, n, acc =>
    if n < 10 then digitChar n :: acc
    else natDigitsAux fuel (n / 10) (digitChar (n % 10) :: acc)

def natDigits (n : Nat) : Str := natDigitsAux (n + 1) n []

/-- Embedding of `strconv.Itoa`: decimal rendering with a leading minus
sign for negative values. -/
def itoa (i : Int) : Str :=
  if i < 0 then '-' :: natDigits (-i).toNat else natDigits i.toNat

/-- The comma-insertion loop of `commas` (src/unz.go): splice a comma at
index `n` and step `n` back by three while it stays non-negative. -/
def insertLoop (cs : Str) (n : Int) : Str :=
  if 0 ≤ n then
    insertLoop (cs.take n.toNat ++ ',' :: cs.drop n.toNat) (n - 3)
  else cs
termination_by (n + 3).toNat
decreasing_by simp_wf; omega

/-- Embedding of `commas` (src/unz.go): strip a leading minus, insert
commas right-to-left every three digits, drop a leading comma, restore
the sign. -/
def commas (i : Int) : Str :=
  let s0 := itoa i
  let pos : Bool := !(decide (s0.head? = some '-'))
  let s1 := if s0.head? = some '-' then s0.drop 1 else s0
  let s2 := insertLoop s1 ((s1.length : Int) - 3)
  let s3 := if s2.head? = some ',' then s2.drop 1 else s2
  if pos then s3 else '-' :: s3

/-- Embedding of `s` (src/unz.go): the plural suffix. -/
def s (n : Int) : Str := if n = 1 then [] else ['s']

/-- The ` (N member|members)` chunk printed in verbose mode. -/
def countChunk (n : Nat) : Str :=
  (" (").toList ++ commas (n : Int) ++ (" member").toList ++ s (n : Int) ++
    (")").toList

def readFailMsg (archive msg : Str) : Str :=
  ("failed to read from ").toList ++ archive ++ (": ").toList ++ msg

/-- The name-collection loop of `listTarball` (src/unz.go): read headers
until EOF, logging each read failure and collecting the names that
arrive intact. -/
def collectNames (archive : Str) : List TarNext → List Str × List Event
  | [] => ([], [])
  | TarNext.header name :: rest =>
    let r := collectNames archive rest
    (name :: r.1, r.2)
  | TarNext.readErr msg :: rest =>
    let r := collectNames archive rest
    (r.1, Event.err (underline (readFailMsg archive msg)) :: r.2)

/-- Embedding of `listTarball` (src/unz.go): open, print the archive name,
collect member names past read errors, then print the names. -/
def listTarball (env : Env) (archive : Str) (verbose : Bool) : List Event :=
  match (openTarball env archive).1.1 with
  | none => (openTarball env archive).2
  | some reader =>
    (openTarball env archive).2 ++
      (if verbose then Event.out (bold archive) else Event.out archive) ::
      ((collectNames archive reader.entries).2 ++
        (if verbose then
          [Event.out
            (countChunk (collectNames archive reader.entries).1.length)]
         else []) ++
        Event.out ['\n'] ::
          (collectNames archive reader.entries).1.map
            (fun nm => Event.out (nm ++ ['\n'])))

/-- Embedding of `listZip` (src/unz.go): open the central directory and
print the archive name followed by the member names. -/
def listZip (env : Env) (archive : Str) (verbose : Bool) : List Event :=
  match env.zipDir archive with
  | none => [Event.err (underline (("failed to open from ").toList ++ archive))]
  | some members =>
    (if !verbose then [Event.out archive]
     else [Event.out (bold archive),
           Event.out (countChunk members.length)]) ++
      Event.out ['\n'] :: members.map (fun nm => Event.out (nm ++ ['\n']))

/-- Embedding of `listContents` (src/unz.go). -/
def listContents (env : Env) (archive : Str) (verbose : Bool) : List Event :=
  if isTarball archive then listTarball env archive verbose
  else listZip env archive verbose

/-- Embedding of the `unpackTarball` stub (src/unz.go): it only prints its
own name and arguments. -/
def unpackTarball (archive : Str) (verbose : Bool) : List Event :=
  [Event.out (("unpackTarball ").toList ++ archive ++ [' '] ++
    (if verbose then ("true").toList else ("false").toList) ++ ['\n'])]

/-- Embedding of the `unpackZip` stub (src/unz.go). -/
def unpackZip (archive : Str) (verbose : Bool) : List Event :=
  [Event.out (("unpackZip ").toList ++ archive ++ [' '] ++
    (if verbose then ("true").toList else ("false").toList) ++ ['\n'])]

/-- Embedding of `unpack` (src/unz.go). -/
def unpack (archive : Str) (verbose : Bool) : List Event :=
  if isTarball archive then unpackTarball archive verbose
  else unpackZip archive verbose

/-- One iteration of the archive loop in `main` (src/unz.go). -/
def processOne (env : Env) (listMode verbose : Bool) (archive : Str) :
    List Event :=
  if listMode then listContents env archive verbose
  else unpack archive verbose

/-- The archive loop of `main` (src/unz.go): archives are processed in
order, each to completion. -/
def mainLoop (env : Env) (listMode verbose : Bool) : List Str → List Event
  | [] => []
  | a :: rest =>
    processOne env listMode verbose a ++ mainLoop env listMode verbose rest

/-- An environment in which `os.Open` fails for every path. -/
def noOpenEnv : Env :=
  ⟨fun _ => false, fun _ => true, fun _ => true, fun _ => [], fun _ => none⟩

/-- The leading-comma strip in `commas` (src/unz.go). -/
def stripLead (cs : Str) : Str := if cs.head? = some ',' then cs.drop 1 else cs

/-- The spec's comma grouping: split three digits off the right until at
most three remain. -/
def groupRight (cs : Str) : Str :=
  if cs.length ≤ 3 then cs
  else groupRight (cs.take (cs.length - 3)) ++ ',' :: cs.drop (cs.length - 3)
termination_by cs.length
decreasing_by simp_wf; omega

/-- The spec's `groupThousands`: decimal digits grouped in threes from the
right, sign preserved. -/
def groupThousands (i : Int) : Str :=
  if i < 0 then '-' :: groupRight (natDigits (-i).toNat)
  else groupRight (natDigits i.toNat)

/-- Modelled from the spec: a raw archive member name as a flag for
absoluteness plus its slash-separated segments.  The Extractor of spec
section 4.5 is only a stub (`unpackTarball`, `unpackZip`) in the source,
so its path handling is modelled from the spec's words. -/
structure EntryName where
  abs : Bool
  segs : List String
  deriving DecidableEq, Repr

inductive EntryKind
  | dir
  | file
  | symlink
  | hardlink
  | other
  deriving DecidableEq, Repr

/-- Modelled from the spec: one archive member, name plus kind. -/
structure Entry where
  name : EntryName
  kind : EntryKind
  deriving DecidableEq, Repr

/-- Modelled from the spec: `filepath.Clean`-style cleaning of a relative
segment list with an accumulator stack: empty and `.` segments are
dropped, `..` consumes a preceding normal segment, and leading `..`
segments are kept. -/
def cleanRel : List String → List String → List String
  | [], acc => acc.reverse
  | seg :: rest, acc =>
    if seg = "" ∨ seg = "." then cleanRel rest acc
    else if seg = ".." then
      match acc with
      | [] => cleanRel rest [".."]
      | top :: accRest =>
        if top = ".." then cleanRel rest (".." :: top :: accRest)
        else cleanRel rest accRest
    else cleanRel rest (seg :: acc)

/-- Modelled from the spec (section 4.5 step 3): reject absolute names,
join the name onto the destination root, resolve `.` and `..`, and accept
the result only when it stays a descendant of the root. -/
def sanitize (root : List String) (n : EntryName) : Option (List String) :=
  if n.abs then none
  else
    let p := cleanRel (root ++ n.segs) []
    if root.isPrefixOf p then some p else none

/-- Modelled from the spec (section 4.5 step 4): directories and regular
files are materialized at their sanitized path; rejected names and
unsupported entry kinds are logged and skipped. -/
def extractEntry (root : List String) (e : Entry) : List Event :=
  match e.kind with
  | EntryKind.dir =>
    match sanitize root e.name with
    | none => [Event.err (("unsafe path rejected").toList)]
    | some p => [Event.fsWrite p]
  | EntryKind.file =>
    match sanitize root e.name with
    | none => [Event.err (("unsafe path rejected").toList)]
    | some p => [Event.fsWrite p]
  | _ => [Event.err (("unsupported entry type skipped").toList)]

/-- Modelled from the spec: the extraction loop over the entries. -/
def extractAll (root : List String) : List Entry → List Event
  | [] => []
  | e :: rest => extractEntry root e ++ extractAll root rest

/-- Modelled from the spec: the final path component of the archive name
(`filepath.Base`). -/
def baseName (a : Str) : Str :=
  (a.reverse.takeWhile (fun c => c != '/')).reverse

/-- The recognized archive and compression suffixes. -/
def knownSuffixes : List Str :=
  [(".zip").toList, (".tar").toList, (".tgz").toList, (".gz").toList,
    (".bz2").toList, (".xz").toList]

/-- Modelled from the spec: repeatedly strip recognized suffixes
(case-insensitively) from a name, fuel-bounded by its length. -/
def stripSuffixesAux : Nat → Str → Str
  | 0, a => a
  | fuel + 1, a =>
    match knownSuffixes.find? (fun suf => endsWithCI a suf) with
    | none => a
    | some suf => stripSuffixesAux fuel (a.take (a.length - suf.length))

def stripSuffixes (a : Str) : Str := stripSuffixesAux a.length a

/-- Modelled from the spec: the new subfolder's name for a multi-member
archive: the archive's base name with all recognized suffixes
stripped. -/
def destName (archive : Str) : String :=
  String.mk (stripSuffixes (baseName archive))

/-- The outcome of unpacking one archive: the destination root used, the
new subfolders created by the plan, and the extraction events. -/
structure UnpackResult where
  destRoot : List String
  newDirs : List (List String)
  events : List Event
  deriving DecidableEq, Repr

/-- Modelled from the spec (sections 3 and 4.5): the destination policy
and extraction of the Extractor, a stub in the source: zero members are a
no-op, one member extracts into the current working directory, two or
more members extract into one newly created subfolder, child of the
current working directory, named after the archive. -/
def unpackArchive (cwd : List String) (archive : Str)
    (entries : List Entry) : UnpackResult :=
  if entries.length = 0 then ⟨cwd, [], []⟩
  else if entries.length = 1 then ⟨cwd, [], extractAll cwd entries⟩
  else
    ⟨cwd ++ [destName archive], [cwd ++ [destName archive]],
      extractAll (cwd ++ [destName archive]) entries⟩

theorem upperS_tar : upperS (".tar".toList) = ".TAR".toList := by decide

theorem upperS_tgz : upperS (".tgz".toList) = ".TGZ".toList := by decide

theorem upperS_tardot : upperS (".tar.".toList) = ".TAR.".toList := by decide

theorem isTarball_eq_tarFamilyCI (a : Str) : isTarball a = tarFamilyCI a := by
  simp only [isTarball, tarFamilyCI, endsWithCI, containsCI, upperS_tar,
    upperS_tgz, upperS_tardot]

/-- C4: format classification is purely suffix-based and case-insensitive:
a path is tar-family iff, ignoring case, it ends with `.tar` or `.tgz` or
contains `.tar.`; every other path is handled as zip; names with the same
case-fold classify identically. -/
theorem claim_C4_format_detection (a : Str) :
    (isTarball a = tarFamilyCI a) ∧
    (classify a = if tarFamilyCI a then Family.tarball else Family.zip) ∧
    (∀ b : Str, upperS a = upperS b → classify a = classify b) := by
  refine ⟨isTarball_eq_tarFamilyCI a, ?_, ?_⟩
  · rw [classify, isTarball_eq_tarFamilyCI]
  · intro b h
    simp only [classify, isTarball, h]

/-- Witness for C4: concrete mixed-case names classify identically, and a
`.zip` name is routed to the zip handler. -/
theorem claim_C4_format_detection_witness :
    classify ("A.TAR.GZ".toList) = classify ("a.tar.gz".toList) ∧
    classify ("photos.zip".toList) =
      (if tarFamilyCI ("photos.zip".toList) then Family.tarball
       else Family.zip) :=
  ⟨(claim_C4_format_detection ("A.TAR.GZ".toList)).2.2 ("a.tar.gz".toList)
      (by decide),
   (claim_C4_format_detection ("photos.zip".toList)).2.1⟩

/-- C10: openTarball returns either the `(nil, nil)` pair or a reader
paired with a closer; a non-nil reader always comes with a non-nil
closer. -/
theorem claim_C10_reader_closer_pairing (env : Env) (a : Str) :
    ((openTarball env a).1.1 = none ∧ (openTarball env a).1.2 = none) ∨
    ((openTarball env a).1.1.isSome = true ∧
      (openTarball env a).1.2.isSome = true) := by
  simp only [openTarball]
  split_ifs <;> simp

theorem upperS_gz : upperS (".gz".toList) = ".GZ".toList := by decide

theorem upperS_bz2 : upperS (".bz2".toList) = ".BZ2".toList := by decide

theorem upperS_xz : upperS (".xz".toList) = ".XZ".toList := by decide

/-- C5 counterexample: `a.tar.gz.bak` contains `.tar.gz` ignoring case,
so the claim demands the gzip decompressor, but `openTarball` picks its
codec by suffix and layers the identity codec under the tar reader. -/
theorem claim_C5_counterexample :
    containsCI ("a.tar.gz.bak".toList) (".tar.gz".toList) = true ∧
    (openTarball allOkEnv ("a.tar.gz.bak".toList)).1.1 =
      some ⟨Codec.identity, []⟩ ∧
    Codec.identity ≠ Codec.gzip := by
  refine ⟨by decide, by decide, by decide⟩

/-- C5 (amended): the decompressor layered under the tar reader is chosen
by case-insensitive suffix: `.gz` or `.tgz` gives gzip, `.bz2` gives
bzip2, `.xz` gives xz, and every other name is read as an uncompressed
(identity) tar stream. -/
theorem claim_C5_codec_amended (env : Env) (a : Str) (r : TarReader)
    (h : (openTarball env a).1.1 = some r) : r.codec = tarCodecSpec a := by
  simp only [openTarball] at h
  unfold tarCodecSpec endsWithCI
  rw [upperS_gz, upperS_tgz, upperS_bz2, upperS_xz]
  split_ifs at h ⊢ <;> simp_all <;> subst h <;> rfl

/-- Witness for C5 (amended) at a concrete archive name. -/
theorem claim_C5_codec_amended_witness :
    (openTarball allOkEnv ("x.tar.bz2".toList)).1.1 =
      some ⟨Codec.bzip2, []⟩ ∧
    Codec.bzip2 = tarCodecSpec ("x.tar.bz2".toList) :=
  ⟨by decide,
    claim_C5_codec_amended allOkEnv ("x.tar.bz2".toList)
      ⟨Codec.bzip2, []⟩ (by decide)⟩

theorem collectNames_fst (archive : Str) (rs : List TarNext) :
    (collectNames archive rs).1 = rs.filterMap (fun r =>
      match r with
      | TarNext.header name => some name
      | TarNext.readErr _ => none) := by
  induction rs with
  | nil => rfl
  | cons r rest ih => cases r <;> simp [collectNames, ih]

theorem collectNames_snd (archive : Str) (rs : List TarNext) :
    (collectNames archive rs).2 = rs.filterMap (fun r =>
      match r with
      | TarNext.header _ => none
      | TarNext.readErr msg =>
        some (Event.err (underline (readFailMsg archive msg)))) := by
  induction rs with
  | nil => rfl
  | cons r rest ih => cases r <;> simp [collectNames, ih]

/-- C8: a read error on an individual tar entry is non-fatal: it is logged
to the error stream, the entry is excluded from the collected names, and
collection continues past it to the end of the stream. -/
theorem claim_C8_read_errors_nonfatal (archive : Str) (rs : List TarNext) :
    ((collectNames archive rs).1 = rs.filterMap (fun r =>
      match r with
      | TarNext.header name => some name
      | TarNext.readErr _ => none)) ∧
    ((collectNames archive rs).2 = rs.filterMap (fun r =>
      match r with
      | TarNext.header _ => none
      | TarNext.readErr msg =>
        some (Event.err (underline (readFailMsg archive msg))))) ∧
    (∀ pre msg post, rs = pre ++ TarNext.readErr msg :: post →
      (collectNames archive rs).1 =
        (collectNames archive pre).1 ++ (collectNames archive post).1 ∧
      Event.err (underline (readFailMsg archive msg)) ∈
        (collectNames archive rs).2) := by
  refine ⟨collectNames_fst archive rs, collectNames_snd archive rs, ?_⟩
  intro pre msg post h
  subst h
  constructor
  · simp [collectNames_fst]
  · simp [collectNames_snd]

/-- Witness for C8 at a concrete stream with one read error. -/
theorem claim_C8_read_errors_nonfatal_witness :
    (collectNames ("t.tar".toList)
        [TarNext.header ("a".toList), TarNext.readErr ("bad".toList),
          TarNext.header ("b".toList)]).1 =
      (collectNames ("t.tar".toList) [TarNext.header ("a".toList)]).1 ++
        (collectNames ("t.tar".toList) [TarNext.header ("b".toList)]).1 ∧
    Event.err (underline (readFailMsg ("t.tar".toList) ("bad".toList))) ∈
      (collectNames ("t.tar".toList)
        [TarNext.header ("a".toList), TarNext.readErr ("bad".toList),
          TarNext.header ("b".toList)]).2 :=
  (claim_C8_read_errors_nonfatal ("t.tar".toList)
      [TarNext.header ("a".toList), TarNext.readErr ("bad".toList),
        TarNext.header ("b".toList)]).2.2
    [TarNext.header ("a".toList)] ("bad".toList)
    [TarNext.header ("b".toList)] rfl

theorem collectNames_headers (archive : Str) (names : List Str) :
    collectNames archive (names.map TarNext.header) = (names, []) := by
  induction names with
  | nil => rfl
  | cons n rest ih => simp [collectNames, ih]

theorem openTarball_some_snd (env : Env) (a : Str) (r : TarReader)
    (h : (openTarball env a).1.1 = some r) : (openTarball env a).2 = [] := by
  simp only [openTarball] at h ⊢
  split_ifs at h ⊢ <;> simp_all

/-- C6: non-verbose listing of a readable archive prints the archive name
followed by exactly the member names, one per line, in archive order, and
the trace contains no filesystem mutation; both for tar and for zip. -/
theorem claim_C6_listing_readonly (env : Env) (archive : Str)
    (reader : TarReader) (names : List Str)
    (htar : (openTarball env archive).1.1 = some reader)
    (hok : reader.entries = names.map TarNext.header) :
    (listTarball env archive false =
      Event.out archive :: Event.out ['\n'] ::
        names.map (fun nm => Event.out (nm ++ ['\n']))) ∧
    (∀ e ∈ listTarball env archive false, e.isFs = false) ∧
    (∀ members, env.zipDir archive = some members →
      listZip env archive false =
        Event.out archive :: Event.out ['\n'] ::
          members.map (fun nm => Event.out (nm ++ ['\n'])) ∧
      ∀ e ∈ listZip env archive false, e.isFs = false) := by
  have hsnd := openTarball_some_snd env archive reader htar
  have hlist : listTarball env archive false =
      Event.out archive :: Event.out ['\n'] ::
        names.map (fun nm => Event.out (nm ++ ['\n'])) := by
    simp [listTarball, htar, hsnd, hok, collectNames_headers]
  refine ⟨hlist, ?_, ?_⟩
  · rw [hlist]
    intro e he
    simp only [List.mem_cons, List.mem_map] at he
    rcases he with h | h | h
    · rw [h]; rfl
    · rw [h]; rfl
    · rcases h with ⟨nm, _, h⟩
      rw [← h]; rfl
  · intro members hzip
    have hz : listZip env archive false =
        Event.out archive :: Event.out ['\n'] ::
          members.map (fun nm => Event.out (nm ++ ['\n'])) := by
      simp [listZip, hzip]
    refine ⟨hz, ?_⟩
    rw [hz]
    intro e he
    simp only [List.mem_cons, List.mem_map] at he
    rcases he with h | h | h
    · rw [h]; rfl
    · rw [h]; rfl
    · rcases h with ⟨nm, _, h⟩
      rw [← h]; rfl

/-- Witness for C6: a concrete readable tar archive with three members
and a concrete zip directory. -/
theorem claim_C6_listing_readonly_witness :
    (listTarball
        ⟨fun _ => true, fun _ => true, fun _ => true,
          fun _ => [TarNext.header ("a.txt".toList),
            TarNext.header ("dir/".toList),
            TarNext.header ("dir/b.txt".toList)],
          fun _ => some [("x".toList)]⟩
        ("t.tar".toList) false =
      Event.out ("t.tar".toList) :: Event.out ['\n'] ::
        [("a.txt".toList), ("dir/".toList), ("dir/b.txt".toList)].map
          (fun nm => Event.out (nm ++ ['\n']))) ∧
    (∀ e ∈ listTarball
        ⟨fun _ => true, fun _ => true, fun _ => true,
          fun _ => [TarNext.header ("a.txt".toList),
            TarNext.header ("dir/".toList),
            TarNext.header ("dir/b.txt".toList)],
          fun _ => some [("x".toList)]⟩
        ("t.tar".toList) false, e.isFs = false) :=
  ⟨(claim_C6_listing_readonly _ ("t.tar".toList)
      ⟨Codec.identity,
        [TarNext.header ("a.txt".toList), TarNext.header ("dir/".toList),
          TarNext.header ("dir/b.txt".toList)]⟩
      [("a.txt".toList), ("dir/".toList), ("dir/b.txt".toList)]
      (by decide) rfl).1,
   (claim_C6_listing_readonly _ ("t.tar".toList)
      ⟨Codec.identity,
        [TarNext.header ("a.txt".toList), TarNext.header ("dir/".toList),
          TarNext.header ("dir/b.txt".toList)]⟩
      [("a.txt".toList), ("dir/".toList), ("dir/b.txt".toList)]
      (by decide) rfl).2.1⟩

/-- C7: the archive loop is fault-isolating: the events of any archive in
the argument list are exactly its own processing, unaffected by earlier
archives, and an archive whose open fails contributes only its open-failure
log. -/
theorem claim_C7_fault_isolation (env : Env) (l v : Bool)
    (xs ys : List Str) (a : Str) :
    (mainLoop env l v (xs ++ a :: ys) =
      mainLoop env l v xs ++ processOne env l v a ++ mainLoop env l v ys) ∧
    (env.openOk a = false → isTarball a = true →
      listTarball env a v = (openTarball env a).2) := by
  constructor
  · induction xs with
    | nil => simp [mainLoop]
    | cons x rest ih => simp [mainLoop, ih]
  · intro hopen _
    have hnone : (openTarball env a).1.1 = none := by
      simp [openTarball, hopen]
    simp [listTarball, hnone]

/-- Witness for C7: a corrupt first archive only logs, and the second
archive's events are exactly its own processing. -/
theorem claim_C7_fault_isolation_witness :
    (mainLoop noOpenEnv true false
        ([("bad.tar".toList)] ++ ("good.zip".toList) :: []) =
      mainLoop noOpenEnv true false [("bad.tar".toList)] ++
        processOne noOpenEnv true false ("good.zip".toList) ++
        mainLoop noOpenEnv true false []) ∧
    (listTarball noOpenEnv ("bad.tar".toList) false =
      (openTarball noOpenEnv ("bad.tar".toList)).2) :=
  ⟨(claim_C7_fault_isolation noOpenEnv true false [("bad.tar".toList)] []
      ("good.zip".toList)).1,
   (claim_C7_fault_isolation noOpenEnv true false [] []
      ("bad.tar".toList)).2 rfl (by decide)⟩

theorem digitChar_toNat (d : Nat) (h : d < 10) : (digitChar d).toNat = 48 + d := by
  have hv : (48 + d).isValidChar := Or.inl (by omega)
  simp [digitChar, Char.ofNat, Char.ofNatAux, hv, Char.toNat, UInt32.toNat,
    BitVec.toNat_ofNatLt]

theorem natDigitsAux_mem (fuel : Nat) :
    ∀ (n : Nat) (acc : Str),
      (∀ c ∈ acc, 48 ≤ c.toNat ∧ c.toNat ≤ 57) →
      ∀ c ∈ natDigitsAux fuel n acc, 48 ≤ c.toNat ∧ c.toNat ≤ 57 := by
  induction fuel with
  | zero => intro n acc hacc; simpa [natDigitsAux] using hacc
  | succ fuel ih =>
    intro n acc hacc c hc
    rw [natDigitsAux] at hc
    split_ifs at hc with hn
    · rcases List.mem_cons.mp hc with h | h
      · subst h; rw [digitChar_toNat _ hn]; omega
      · exact hacc _ h
    · refine ih (n / 10) _ ?_ c hc
      intro c' hc'
      rcases List.mem_cons.mp hc' with h | h
      · subst h
        rw [digitChar_toNat _ (Nat.mod_lt _ (by omega))]
        have := Nat.mod_lt n (show 0 < 10 by omega)
        omega
      · exact hacc _ h

theorem natDigitsAux_length (fuel : Nat) :
    ∀ (n : Nat) (acc : Str),
      acc.length ≤ (natDigitsAux fuel n acc).length := by
  induction fuel with
  | zero => intro n acc; simp [natDigitsAux]
  | succ fuel ih =>
    intro n acc
    rw [natDigitsAux]
    split_ifs
    · simp
    · calc acc.length ≤ (digitChar (n % 10) :: acc).length := by simp
        _ ≤ _ := ih _ _

theorem natDigits_ne_nil (n : Nat) : natDigits n ≠ [] := by
  rw [natDigits, natDigitsAux]
  split_ifs
  · simp
  · intro h
    have h2 := natDigitsAux_length n (n / 10) [digitChar (n % 10)]
    rw [h] at h2
    simp at h2

theorem natDigits_mem (n : Nat) :
    ∀ c ∈ natDigits n, 48 ≤ c.toNat ∧ c.toNat ≤ 57 :=
  natDigitsAux_mem _ _ _ (by simp)

theorem natDigits_head_digit (n : Nat) (c : Char)
    (h : (natDigits n).head? = some c) : 48 ≤ c.toNat ∧ c.toNat ≤ 57 :=
  natDigits_mem n c (List.mem_of_mem_head? h)

theorem natDigits_head_ne_minus (n : Nat) :
    (natDigits n).head? ≠ some '-' := by
  intro h
  have h2 := (natDigits_head_digit n '-' h).1
  have h45 : ('-').toNat = 45 := by decide
  omega

theorem natDigits_head_ne_comma (n : Nat) :
    (natDigits n).head? ≠ some ',' := by
  intro h
  have h2 := (natDigits_head_digit n ',' h).1
  have h44 : (',').toNat = 44 := by decide
  omega

theorem insertLoop_length (cs : Str) (n : Int) :
    cs.length ≤ (insertLoop cs n).length := by
  induction cs, n using insertLoop.induct with
  | case1 cs n h ih =>
    conv_rhs => rw [insertLoop.eq_def]
    rw [if_pos h]
    refine le_trans ?_ ih
    have hsplit : (cs.take n.toNat).length + (cs.drop n.toNat).length
        = cs.length := by
      rw [← List.length_append, List.take_append_drop]
    rw [List.length_append, List.length_cons]
    omega
  | case2 cs n h =>
    conv_rhs => rw [insertLoop.eq_def]
    rw [if_neg h]

theorem insertLoop_ne_nil (cs : Str) (n : Int) (h : cs ≠ []) :
    insertLoop cs n ≠ [] := by
  intro h0
  have h1 := insertLoop_length cs n
  rw [h0] at h1
  simp at h1
  exact h h1

theorem insertLoop_append (a : Str) (n : Int) :
    ∀ b : Str, n ≤ (a.length : Int) →
      insertLoop (a ++ b) n = insertLoop a n ++ b := by
  induction a, n using insertLoop.induct with
  | case1 a n h0 ih =>
    intro b h
    have hn : n.toNat ≤ a.length := by omega
    conv_lhs => rw [insertLoop.eq_def]
    conv_rhs => rw [insertLoop.eq_def]
    rw [if_pos h0, if_pos h0]
    rw [List.take_append_of_le_length hn, List.drop_append_of_le_length hn]
    have hstep : a.take n.toNat ++ ',' :: (a.drop n.toNat ++ b)
        = (a.take n.toNat ++ ',' :: a.drop n.toNat) ++ b := by
      simp
    rw [hstep]
    refine ih b ?_
    have : (a.take n.toNat ++ ',' :: a.drop n.toNat).length = a.length + 1 := by
      simp
      omega
    rw [this]
    omega
  | case2 a n h0 =>
    intro b h
    conv_lhs => rw [insertLoop.eq_def]
    conv_rhs => rw [insertLoop.eq_def]
    rw [if_neg h0, if_neg h0]

theorem stripLead_append (x y : Str) (hx : x ≠ []) :
    stripLead (x ++ y) = stripLead x ++ y := by
  cases x with
  | nil => exact absurd rfl hx
  | cons c xs =>
    simp only [stripLead, List.cons_append, List.head?_cons]
    split_ifs <;> simp

theorem head?_take (cs : Str) (k : Nat) (hk : 1 ≤ k) :
    (cs.take k).head? = cs.head? := by
  cases cs <;> cases k <;> simp_all

theorem stripLead_insertLoop (k : Nat) :
    ∀ cs : Str, cs.length = k → cs ≠ [] → cs.head? ≠ some ',' →
      stripLead (insertLoop cs ((cs.length : Int) - 3)) = groupRight cs := by
  induction k using Nat.strong_induction_on with
  | _ k ih =>
    intro cs hk hne hhead
    by_cases h2 : cs.length ≤ 2
    · conv_lhs => rw [insertLoop.eq_def]
      rw [if_neg (by omega : ¬ (0:Int) ≤ (cs.length : Int) - 3)]
      conv_rhs => rw [groupRight.eq_def]
      rw [if_pos (by omega)]
      simp only [stripLead, if_neg hhead]
    · by_cases h3 : cs.length = 3
      · conv_lhs => rw [insertLoop.eq_def]
        rw [if_pos (by omega : (0:Int) ≤ (cs.length : Int) - 3)]
        have e1 : ((cs.length : Int) - 3).toNat = 0 := by omega
        rw [e1]
        simp only [List.take_zero, List.drop_zero, List.nil_append]
        conv_lhs => rw [insertLoop.eq_def]
        rw [if_neg (by omega : ¬ (0:Int) ≤ (cs.length : Int) - 3 - 3)]
        conv_rhs => rw [groupRight.eq_def]
        rw [if_pos (by omega)]
        simp [stripLead]
      · have h4 : 3 < cs.length := by omega
        conv_lhs => rw [insertLoop.eq_def]
        rw [if_pos (by omega : (0:Int) ≤ (cs.length : Int) - 3)]
        have e1 : ((cs.length : Int) - 3).toNat = cs.length - 3 := by omega
        rw [e1]
        have hlena : (cs.take (cs.length - 3)).length = cs.length - 3 := by
          simp
        have hle : (cs.length : Int) - 3 - 3 ≤
            ((cs.take (cs.length - 3)).length : Int) := by
          rw [hlena]; omega
        rw [insertLoop_append (cs.take (cs.length - 3))
          ((cs.length : Int) - 3 - 3) (',' :: cs.drop (cs.length - 3)) hle]
        have hane : cs.take (cs.length - 3) ≠ [] := by
          intro h0
          rw [h0] at hlena
          simp at hlena
          omega
        have e2 : (cs.length : Int) - 3 - 3 =
            ((cs.take (cs.length - 3)).length : Int) - 3 := by
          rw [hlena]; omega
        rw [e2]
        rw [stripLead_append _ _ (insertLoop_ne_nil _ _ hane)]
        rw [ih (cs.take (cs.length - 3)).length (by omega)
          (cs.take (cs.length - 3)) rfl hane
          (by rw [head?_take cs (cs.length - 3) (by omega)]; exact hhead)]
        conv_rhs => rw [groupRight.eq_def]
        rw [if_neg (by omega)]

theorem stripLead_insertLoop_self (cs : Str) (hne : cs ≠ [])
    (hhead : cs.head? ≠ some ',') :
    stripLead (insertLoop cs ((cs.length : Int) - 3)) = groupRight cs :=
  stripLead_insertLoop cs.length cs rfl hne hhead

theorem stripLead_eq (cs : Str) :
    stripLead cs = if cs.head? = some ',' then cs.tail else cs := by
  simp [stripLead, List.drop_one]

theorem commas_eq_groupThousands (i : Int) : commas i = groupThousands i := by
  by_cases hi : i < 0
  · have h := stripLead_insertLoop_self (natDigits (-i).toNat)
      (natDigits_ne_nil _) (natDigits_head_ne_comma _)
    simp [commas, itoa, groupThousands, hi]
    rw [← stripLead_eq]
    exact h
  · have hh : (natDigits i.toNat).head? ≠ some '-' := natDigits_head_ne_minus _
    have h := stripLead_insertLoop_self (natDigits i.toNat)
      (natDigits_ne_nil _) (natDigits_head_ne_comma _)
    simp [commas, itoa, groupThousands, hi, hh]
    rw [← stripLead_eq]
    exact h

theorem groupRight_ne_nil (cs : Str) (hne : cs ≠ []) : groupRight cs ≠ [] := by
  rw [groupRight.eq_def]
  split_ifs
  · exact hne
  · simp

theorem groupRight_head? (k : Nat) :
    ∀ cs : Str, cs.length = k → cs ≠ [] →
      (groupRight cs).head? = cs.head? := by
  induction k using Nat.strong_induction_on with
  | _ k ih =>
    intro cs hk hne
    rw [groupRight.eq_def]
    split_ifs with h3
    · rfl
    · have hlena : (cs.take (cs.length - 3)).length = cs.length - 3 := by simp
      have hane : cs.take (cs.length - 3) ≠ [] := by
        intro h0
        rw [h0] at hlena
        simp at hlena
        omega
      rw [List.head?_append_of_ne_nil _
        (groupRight_ne_nil _ hane)]
      rw [ih (cs.take (cs.length - 3)).length (by omega)
        (cs.take (cs.length - 3)) rfl hane]
      exact head?_take cs (cs.length - 3) (by omega)

/-- C9: `commas` renders its argument in decimal with a comma every three
digits counted from the right, preserves a leading minus sign, and never
produces a leading comma; in particular at 1000, -42 and 999. -/
theorem claim_C9_commas_grouping :
    (∀ i : Int, commas i = groupThousands i) ∧
    (∀ i : Int, (commas i).head? ≠ some ',') ∧
    commas 1000 = ("1,000").toList ∧
    commas (-42) = ("-42").toList ∧
    commas 999 = ("999").toList := by
  refine ⟨commas_eq_groupThousands, ?_, ?_, ?_, ?_⟩
  · intro i
    rw [commas_eq_groupThousands]
    by_cases hi : i < 0
    · simp [groupThousands, hi]
    · simp only [groupThousands, if_neg hi]
      rw [groupRight_head? (natDigits i.toNat).length _ rfl (natDigits_ne_nil _)]
      exact natDigits_head_ne_comma _
  · have h1 : itoa 1000 = ("1000").toList := by decide
    simp [commas, h1, insertLoop, stripLead]
  · have h1 : itoa (-42) = ("-42").toList := by decide
    simp [commas, h1, insertLoop, stripLead]
  · have h1 : itoa 999 = ("999").toList := by decide
    simp [commas, h1, insertLoop, stripLead]

theorem cleanRel_shape : ∀ (ss : List String) (acc : List String),
    (∃ a b : List String, acc = a ++ b ∧ ".." ∉ a ∧ (∀ x ∈ b, x = "..")) →
    ∃ k rest, cleanRel ss acc = List.replicate k ("..") ++ rest ∧
      ".." ∉ rest := by
  intro ss
  induction ss with
  | nil =>
    intro acc hInv
    obtain ⟨a, b, hab, hna, hb⟩ := hInv
    subst hab
    refine ⟨b.length, a.reverse, ?_, ?_⟩
    · have hb' : b = List.replicate b.length ("..") :=
        List.eq_replicate_iff.mpr ⟨rfl, hb⟩
      rw [cleanRel.eq_def]
      dsimp only
      rw [List.reverse_append, hb', List.reverse_replicate,
        List.length_replicate]
    · simpa using hna
  | cons seg rest ih =>
    intro acc hInv
    rw [cleanRel.eq_def]
    dsimp only
    split_ifs with h1 h2
    · exact ih acc hInv
    · obtain ⟨a, b, hab, hna, hb⟩ := hInv
      subst hab
      cases a with
      | nil =>
        cases b with
        | nil =>
          simp only [List.nil_append]
          exact ih _ ⟨[], [".."], rfl, by simp, by simp⟩
        | cons bh bt =>
          have hbh : bh = ".." := hb _ (by simp)
          simp only [List.nil_append, hbh, if_pos rfl]
          refine ih _ ⟨[], ".." :: ".." :: bt, rfl, by simp, ?_⟩
          intro x hx
          rcases List.mem_cons.mp hx with h | hx2
          · exact h
          rcases List.mem_cons.mp hx2 with h | hx3
          · exact h
          · exact hb x (by simp [hbh, hx3])
      | cons ah at2 =>
        have hah : ah ≠ ".." := by
          intro h
          exact hna (h ▸ List.mem_cons_self _ _)
        simp only [List.cons_append, if_neg hah]
        refine ih _ ⟨at2, b, rfl, ?_, hb⟩
        intro hmem
        exact hna (List.mem_cons_of_mem _ hmem)
    · obtain ⟨a, b, hab, hna, hb⟩ := hInv
      subst hab
      refine ih _ ⟨seg :: a, b, by simp, ?_, hb⟩
      intro hmem
      rcases List.mem_cons.mp hmem with h | h
      · exact h2 h.symm
      · exact hna h

theorem sanitize_safe (root : List String) (hroot : root ≠ [])
    (hdd : ".." ∉ root) (n : EntryName) (p : List String)
    (h : sanitize root n = some p) :
    List.IsPrefix root p ∧ ".." ∉ p ∧ n.abs = false := by
  simp only [sanitize] at h
  by_cases habs : n.abs = true
  · rw [if_pos habs] at h
    exact absurd h (by simp)
  · rw [if_neg habs] at h
    by_cases hpre : root.isPrefixOf (cleanRel (root ++ n.segs) []) = true
    · rw [if_pos hpre] at h
      have hcp : cleanRel (root ++ n.segs) [] = p := Option.some_inj.mp h
      have hpre' : List.IsPrefix root p := by
        have h2 := List.isPrefixOf_iff_prefix.mp hpre
        rwa [hcp] at h2
      refine ⟨hpre', ?_, by simpa using habs⟩
      obtain ⟨k, rest, hshape, hrest⟩ :=
        cleanRel_shape (root ++ n.segs) [] ⟨[], [], rfl, by simp, by simp⟩
      have hp : p = List.replicate k ("..") ++ rest := by
        rw [← hcp, hshape]
      cases k with
      | zero => simpa [hp] using hrest
      | succ k2 =>
        exfalso
        obtain ⟨t, ht⟩ := hpre'
        have hhead : p.head? = some ("..") := by
          rw [hp, List.replicate_succ]
          rfl
        have hhead2 : p.head? = root.head? := by
          rw [← ht, List.head?_append_of_ne_nil _ hroot]
        rw [hhead2] at hhead
        exact hdd (List.mem_of_mem_head? (Option.mem_def.mpr hhead))
    · rw [if_neg hpre] at h
      exact absurd h (by simp)

theorem extractEntry_write_safe (root : List String) (hroot : root ≠ [])
    (hdd : ".." ∉ root) (e : Entry) (p : List String)
    (hmem : Event.fsWrite p ∈ extractEntry root e) :
    List.IsPrefix root p ∧ ".." ∉ p := by
  rcases e with ⟨nm, kind⟩
  cases kind with
  | dir =>
    cases hs : sanitize root nm with
    | none => simp [extractEntry, hs] at hmem
    | some q =>
      simp [extractEntry, hs] at hmem
      subst hmem
      exact ⟨(sanitize_safe root hroot hdd nm p hs).1,
        (sanitize_safe root hroot hdd nm p hs).2.1⟩
  | file =>
    cases hs : sanitize root nm with
    | none => simp [extractEntry, hs] at hmem
    | some q =>
      simp [extractEntry, hs] at hmem
      subst hmem
      exact ⟨(sanitize_safe root hroot hdd nm p hs).1,
        (sanitize_safe root hroot hdd nm p hs).2.1⟩
  | symlink => simp [extractEntry] at hmem
  | hardlink => simp [extractEntry] at hmem
  | other => simp [extractEntry] at hmem

theorem extractAll_write_safe (root : List String) (hroot : root ≠ [])
    (hdd : ".." ∉ root) :
    ∀ (es : List Entry) (p : List String),
      Event.fsWrite p ∈ extractAll root es →
      List.IsPrefix root p ∧ ".." ∉ p := by
  intro es
  induction es with
  | nil => intro p hp; simp [extractAll] at hp
  | cons e rest ih =>
    intro p hp
    rw [extractAll] at hp
    rcases List.mem_append.mp hp with h | h
    · exact extractEntry_write_safe root hroot hdd e p h
    · exact ih p h

/-- C1: extraction writes only to descendants of the destination root:
an accepted entry's resolved path extends the root and is fully resolved;
an absolute entry name is rejected by sanitization; every rejected entry
is skipped (no write) and reported, as is every unsupported kind. -/
theorem claim_C1_path_safety (root : List String) (hroot : root ≠ [])
    (hdd : ".." ∉ root) (entries : List Entry) :
    (∀ p, Event.fsWrite p ∈ extractAll root entries →
      List.IsPrefix root p ∧ ".." ∉ p) ∧
    (∀ n : EntryName, n.abs = true → sanitize root n = none) ∧
    (∀ e : Entry, sanitize root e.name = none →
      (∀ p, Event.fsWrite p ∉ extractEntry root e) ∧
      ∃ m, Event.err m ∈ extractEntry root e) := by
  refine ⟨fun p hp => extractAll_write_safe root hroot hdd entries p hp,
    ?_, ?_⟩
  · intro n habs
    simp [sanitize, habs]
  · intro e hnone
    rcases e with ⟨nm, kind⟩
    simp only at hnone
    cases kind <;> simp [extractEntry, hnone]

/-- Witness for C1: `/etc/passwd` is rejected, and every write from a
hostile `../../evil` entry would have to stay under the root. -/
theorem claim_C1_path_safety_witness :
    sanitize ["d"] ⟨true, ["", "etc", "passwd"]⟩ = none ∧
    (∀ p, Event.fsWrite p ∈
        extractAll ["d"] [⟨⟨false, ["..", "..", "evil"]⟩, EntryKind.file⟩] →
      List.IsPrefix ["d"] p ∧ ".." ∉ p) :=
  ⟨(claim_C1_path_safety ["d"] (by decide) (by decide) []).2.1
      ⟨true, ["", "etc", "passwd"]⟩ rfl,
   (claim_C1_path_safety ["d"] (by decide) (by decide)
      [⟨⟨false, ["..", "..", "evil"]⟩, EntryKind.file⟩]).1⟩

/-- C2: an archive with exactly one entry extracts into the current
working directory itself: the destination root is the current working
directory, no new subfolder is created, and every write stays under the
current working directory. -/
theorem claim_C2_single_member (cwd : List String) (hroot : cwd ≠ [])
    (hdd : ".." ∉ cwd) (archive : Str) (entries : List Entry)
    (hn : entries.length = 1) :
    (unpackArchive cwd archive entries).destRoot = cwd ∧
    (unpackArchive cwd archive entries).newDirs = [] ∧
    (∀ p, Event.fsWrite p ∈ (unpackArchive cwd archive entries).events →
      List.IsPrefix cwd p) := by
  have h0 : ¬ entries.length = 0 := by omega
  simp only [unpackArchive, if_neg h0, if_pos hn]
  exact ⟨trivial, trivial,
    fun p hp => (extractAll_write_safe cwd hroot hdd entries p hp).1⟩

/-- Witness for C2 at a one-entry archive. -/
theorem claim_C2_single_member_witness :
    (unpackArchive ["d"] ("a.tar.gz".toList)
        [⟨⟨false, ["x.txt"]⟩, EntryKind.file⟩]).destRoot = ["d"] ∧
    (unpackArchive ["d"] ("a.tar.gz".toList)
        [⟨⟨false, ["x.txt"]⟩, EntryKind.file⟩]).newDirs = [] :=
  ⟨(claim_C2_single_member ["d"] (by decide) (by decide)
      ("a.tar.gz".toList) [⟨⟨false, ["x.txt"]⟩, EntryKind.file⟩] rfl).1,
   (claim_C2_single_member ["d"] (by decide) (by decide)
      ("a.tar.gz".toList) [⟨⟨false, ["x.txt"]⟩, EntryKind.file⟩] rfl).2.1⟩

/-- C3: an archive with two or more entries creates exactly one new
directory, named after the archive's base name with recognized suffixes
stripped, as a child of the current working directory, and every write
lands under it. -/
theorem claim_C3_multi_member (cwd : List String) (hroot : cwd ≠ [])
    (hdd : ".." ∉ cwd) (archive : Str) (entries : List Entry)
    (hn : 2 ≤ entries.length) (hdn : destName archive ≠ "..") :
    (unpackArchive cwd archive entries).newDirs =
      [cwd ++ [destName archive]] ∧
    (unpackArchive cwd archive entries).destRoot =
      cwd ++ [destName archive] ∧
    (∀ p, Event.fsWrite p ∈ (unpackArchive cwd archive entries).events →
      List.IsPrefix (cwd ++ [destName archive]) p) := by
  have h0 : ¬ entries.length = 0 := by omega
  have h1 : ¬ entries.length = 1 := by omega
  have hroot2 : cwd ++ [destName archive] ≠ [] := by simp
  have hdd2 : ".." ∉ cwd ++ [destName archive] := by
    intro h
    rcases List.mem_append.mp h with h | h
    · exact hdd h
    · exact hdn (List.mem_singleton.mp h).symm
  simp only [unpackArchive, if_neg h0, if_neg h1]
  exact ⟨trivial, trivial,
    fun p hp => (extractAll_write_safe _ hroot2 hdd2 entries p hp).1⟩

/-- Witness for C3 at a two-entry archive named `a.tar.gz`. -/
theorem claim_C3_multi_member_witness :
    (unpackArchive ["d"] ("a.tar.gz".toList)
        [⟨⟨false, ["x"]⟩, EntryKind.file⟩,
          ⟨⟨false, ["y"]⟩, EntryKind.file⟩]).newDirs =
      [["d"] ++ [destName ("a.tar.gz".toList)]] ∧
    (unpackArchive ["d"] ("a.tar.gz".toList)
        [⟨⟨false, ["x"]⟩, EntryKind.file⟩,
          ⟨⟨false, ["y"]⟩, EntryKind.file⟩]).destRoot =
      ["d"] ++ [destName ("a.tar.gz".toList)] :=
  ⟨(claim_C3_multi_member ["d"] (by decide) (by decide)
      ("a.tar.gz".toList)
      [⟨⟨false, ["x"]⟩, EntryKind.file⟩, ⟨⟨false, ["y"]⟩, EntryKind.file⟩]
      (by decide) (by decide)).1,
   (claim_C3_multi_member ["d"] (by decide) (by decide)
      ("a.tar.gz".toList)
      [⟨⟨false, ["x"]⟩, EntryKind.file⟩, ⟨⟨false, ["y"]⟩, EntryKind.file⟩]
      (by decide) (by decide)).2.1⟩
